import Mathlib

/-!
Shallow embedding of the Go rules engine specified for this repository.

The repository ships only the abstract interface `GoBase` (src/src/base.py)
and the test suite of a stand-in implementation (src/tests/test_fake.py);
the engine itself is not under src/.  Following the specification, the
engine is modelled here definition by definition; each comment beginning
`Modelled from the spec:` names the missing piece of code the definition
stands for.  The stand-in class `GoFake` (also missing from src/) is
modelled separately at the end, from the behaviour its tests pin down.
-/

set_option maxRecDepth 4000

namespace GoSpec

/-- Cell of the board: `none` is empty, `some k` is a stone of player `k`
(players are numbered from 1), matching `BoardGridType` in src/src/base.py. -/
abbrev Cell := Option Nat

/-- Board grid, a list of rows, matching `BoardGridType` in src/src/base.py. -/
abbrev BoardGrid := List (List Cell)

/-- Position on the board: a (row, column) pair, 0-indexed.  The Python
interface accepts arbitrary integers, so components are `Int`. -/
abbrev Pos := Int × Int

/-- Errors of the interface: the `ValueError` raised for an out-of-bounds
position, and the `ValueError` raised by `load_game` for bad arguments. -/
inductive GoError where
  | outOfBounds
  | invalidArgument
deriving DecidableEq

/-- Modelled from the spec: the Game State record of section 3 (the missing
engine class implementing `GoBase`).  `history` holds the fingerprint of
every board state reached, most recent first, so its head is the current
board; board fingerprints are the full grids themselves (board equality is
by full grid content). -/
structure Game where
  side : Nat
  players : Nat
  superko : Bool
  board : BoardGrid
  turn : Nat
  consecutivePasses : Nat
  history : List BoardGrid
deriving DecidableEq

/-- A position is valid iff both components are in `[0, side)` (spec §3). -/
def inBounds (side : Nat) (p : Pos) : Bool :=
  decide (0 ≤ p.1 ∧ p.1 < (side : Int) ∧ 0 ≤ p.2 ∧ p.2 < (side : Int))

/-- Content of the board at a position; out-of-bounds positions read as
empty, so every caller that distinguishes the two guards with `inBounds`. -/
def cellAt (side : Nat) (b : BoardGrid) (p : Pos) : Cell :=
  if inBounds side p then ((b[p.1.toNat]?).bind (fun row => row[p.2.toNat]?)).join
  else none

/-- Board with the cell at `p` replaced by `v` (rows out of range untouched). -/
def boardSet (b : BoardGrid) (p : Pos) (v : Cell) : BoardGrid :=
  match b[p.1.toNat]? with
  | some row => b.set p.1.toNat (row.set p.2.toNat v)
  | none => b

/-- The all-empty side×side grid the game starts from. -/
def emptyBoard (side : Nat) : BoardGrid :=
  List.replicate side (List.replicate side (none : Cell))

/-- A grid has the dimensions the game was constructed with (spec §3:
"a side×side matrix"). -/
def WellFormed (side : Nat) (b : BoardGrid) : Prop :=
  b.length = side ∧ ∀ row ∈ b, row.length = side

instance (side : Nat) (b : BoardGrid) : Decidable (WellFormed side b) := by
  unfold WellFormed; infer_instance

/-- Every on-board position, row-major. -/
def allPositions (side : Nat) : List Pos :=
  (List.range side).flatMap (fun r => (List.range side).map (fun c => (Int.ofNat r, Int.ofNat c)))

/-- The 4 orthogonal neighbors of a position (spec §4.2: orthogonal
adjacency only). -/
def orthNeighbors (p : Pos) : List Pos :=
  [(p.1 - 1, p.2), (p.1 + 1, p.2), (p.1, p.2 - 1), (p.1, p.2 + 1)]

/-- One expansion step of a flood fill: add the orthogonal neighbors that
satisfy `keep` and are not already collected. -/
def expandBy (keep : Pos → Bool) (s : List Pos) : List Pos :=
  s ++ ((s.flatMap orthNeighbors).filter (fun q => keep q && !(s.contains q))).dedup

/-- Iterate `f` until it fixes its argument, for at most `fuel` rounds. -/
def saturate (f : List Pos → List Pos) : Nat → List Pos → List Pos
  | 0, s => s
  | fuel + 1, s => if f s = s then s else saturate f fuel (f s)

/-- Modelled from the spec: the Group Analyzer (§4.2) of the missing engine.
Starting from an occupied position, collects the maximal orthogonally
connected set of same-owner stones; `side * side` expansion rounds always
reach the fixpoint. -/
def groupOf (side : Nat) (b : BoardGrid) (p : Pos) : List Pos :=
  match cellAt side b p with
  | none => []
  | some o => saturate (expandBy (fun q => cellAt side b q == some o)) (side * side) [p]

/-- Modelled from the spec: liberties of a group (§4.2) — the deduplicated
empty intersections orthogonally adjacent to any member. -/
def libertiesOf (side : Nat) (b : BoardGrid) (group : List Pos) : List Pos :=
  ((group.flatMap orthNeighbors).filter
    (fun q => inBounds side q && cellAt side b q == none)).dedup

/-- Board with the stones at all listed positions removed. -/
def removeAll (b : BoardGrid) (ps : List Pos) : BoardGrid :=
  ps.foldl (fun acc p => boardSet acc p none) b

/-- Modelled from the spec: step 2 of `apply_move` (§4.3) of the missing
engine — for each of the 4 orthogonal neighbors owned by a different player,
the neighbor's whole group if its liberty count is now zero.  `b` is the
board with the new stone already placed. -/
def capturedPositions (side : Nat) (b : BoardGrid) (pos : Pos) (player : Nat) : List Pos :=
  (orthNeighbors pos).flatMap (fun n =>
    match cellAt side b n with
    | some o =>
        if o ≠ player ∧ libertiesOf side b (groupOf side b n) = [] then groupOf side b n
        else []
    | none => [])

/-- Modelled from the spec: resolving a placement (§4.3) — place the stone,
then remove every captured opponent group. -/
def resolveMove (side : Nat) (b : BoardGrid) (pos : Pos) (player : Nat) : BoardGrid :=
  let placed := boardSet b pos (some player)
  removeAll placed (capturedPositions side placed pos player)

/-- Next player in the cyclic order 1..players..1 (spec §3). -/
def nextTurn (g : Game) : Nat := g.turn % g.players + 1

/-- Modelled from the spec: `apply_move` (§4.3) of the missing engine —
place the current player's stone, capture, append the resulting board to
history, advance the turn and reset the consecutive-pass count; fails with
the OutOfBounds error off the board. -/
def apply_move (g : Game) (pos : Pos) : Except GoError Game :=
  if inBounds g.side pos then
    let b := resolveMove g.side g.board pos g.turn
    .ok { g with board := b, turn := nextTurn g, consecutivePasses := 0,
                 history := b :: g.history }
  else .error .outOfBounds

/-- Hypothetical next board used by the ko rule (§4.3): tentatively resolve
the candidate placement and its captures. -/
def hypotheticalBoard (g : Game) (pos : Pos) : BoardGrid :=
  resolveMove g.side g.board pos g.turn

/-- Modelled from the spec: the ko / superko check of `legal_move` (§4.3) —
under simple ko, compare the hypothetical board with the board exactly one
ply before the current one; under superko, with every recorded board. -/
def koViolation (g : Game) (hyp : BoardGrid) : Bool :=
  if g.superko then g.history.contains hyp
  else match g.history with
    | _ :: prev :: _ => hyp == prev
    | _ => false

/-- Modelled from the spec: `legal_move` (§4.3) of the missing engine —
OutOfBounds off the board; otherwise false iff the position is occupied,
the move would be suicide, or the active ko rule rejects it. -/
def legal_move (g : Game) (pos : Pos) : Except GoError Bool :=
  if inBounds g.side pos then
    if cellAt g.side g.board pos ≠ none then .ok false
    else
      let hyp := hypotheticalBoard g pos
      if libertiesOf g.side hyp (groupOf g.side hyp pos) = [] then .ok false
      else .ok (!koViolation g hyp)
  else .error .outOfBounds

/-- Modelled from the spec: `pass_turn` (§4.3) — advance the turn cyclically
and increment the consecutive-pass count. -/
def pass_turn (g : Game) : Game :=
  { g with turn := nextTurn g, consecutivePasses := g.consecutivePasses + 1 }

/-- Modelled from the spec: `done` (§4.5) — true iff
`consecutive_passes == players`. -/
def done (g : Game) : Bool := g.consecutivePasses == g.players

/-- Modelled from the spec: `piece_at` (§4.1) — owner or empty, OutOfBounds
off the grid. -/
def piece_at (g : Game) (pos : Pos) : Except GoError Cell :=
  if inBounds g.side pos then .ok (cellAt g.side g.board pos) else .error .outOfBounds

/-- Modelled from the spec: the `grid` property (§4.1) — a full snapshot of
the board (an independent copy, by the value semantics of the embedding). -/
def grid (g : Game) : BoardGrid := g.board

/-- Scenario formalising the `grid` value-semantics test: take a snapshot,
mutate the snapshot arbitrarily, then ask the game itself for a cell.  The
pair holds the mutated snapshot and the game's own answer. -/
def gridSnapshotScenario (g : Game) (mutate : BoardGrid → BoardGrid) (pos : Pos) :
    BoardGrid × Except GoError Cell :=
  (mutate (grid g), piece_at g pos)

/-- Valid arguments for `load_game` (§4.3): turn within `[1, players]`,
side×side dimensions, and every stored owner within `[1, players]`. -/
def ValidLoad (g : Game) (turn : Nat) (b : BoardGrid) : Prop :=
  (1 ≤ turn ∧ turn ≤ g.players) ∧ WellFormed g.side b ∧
    ∀ row ∈ b, ∀ c ∈ row, ∀ v, c = some v → 1 ≤ v ∧ v ≤ g.players

instance (g : Game) (turn : Nat) (b : BoardGrid) : Decidable (ValidLoad g turn b) := by
  unfold ValidLoad; infer_instance

/-- Modelled from the spec: `load_game` (§4.3) of the missing engine — fails
with the InvalidArgument error on a bad turn, bad dimensions or a bad owner;
on success replaces board and turn, resets passes, and resets history to the
single loaded board. -/
def load_game (g : Game) (turn : Nat) (b : BoardGrid) : Except GoError Game :=
  if ValidLoad g turn b then
    .ok { g with board := b, turn := turn, consecutivePasses := 0, history := [b] }
  else .error .invalidArgument

/-- Modelled from the spec: `simulate_move` (§4.3) — apply the move (or the
pass, for the pass token) to an independent copy of the state and return the
copy; in the pure embedding the copy is the value itself. -/
def simulate_move (g : Game) (pos : Option Pos) : Except GoError Game :=
  match pos with
  | none => .ok (pass_turn g)
  | some p => apply_move g p

/-- Modelled from the spec: a freshly constructed Game State (§3 lifecycle):
empty board, turn 1, no passes, history holding the initial board. -/
def newGame (side players : Nat) (superko : Bool) : Game :=
  { side := side, players := players, superko := superko,
    board := emptyBoard side, turn := 1, consecutivePasses := 0,
    history := [emptyBoard side] }

/-- Apply a whole sequence of placements, stopping at the first error. -/
def playMoves (g : Game) (moves : List Pos) : Except GoError Game :=
  moves.foldlM apply_move g

/-- Number of stones of `player` on the board. -/
def stonesOf (side : Nat) (b : BoardGrid) (player : Nat) : Nat :=
  ((allPositions side).filter (fun p => cellAt side b p == some player)).length

/-- Modelled from the spec: one empty region of the Scoring Engine (§4.4),
the maximal orthogonally connected set of empty intersections through `p`. -/
def regionOf (side : Nat) (b : BoardGrid) (p : Pos) : List Pos :=
  saturate (expandBy (fun q => inBounds side q && cellAt side b q == none)) (side * side) [p]

/-- Distinct owners of stones orthogonally adjacent to a region (§4.4). -/
def regionOwners (side : Nat) (b : BoardGrid) (region : List Pos) : List Nat :=
  ((region.flatMap orthNeighbors).filterMap (fun q => cellAt side b q)).dedup

/-- Modelled from the spec: the maximal connected empty regions of the board
(§4.4), found by scanning all positions and flood-filling each empty
position not already inside a found region. -/
def emptyRegions (side : Nat) (b : BoardGrid) : List (List Pos) :=
  (allPositions side).foldl
    (fun acc p =>
      if cellAt side b p == none && !(acc.any (fun r => r.contains p)) then
        acc ++ [regionOf side b p]
      else acc) []

/-- Modelled from the spec: territory of a player (§4.4) — the total size of
the empty regions whose distinct bordering owners are exactly that player. -/
def territoryOf (side : Nat) (b : BoardGrid) (player : Nat) : Nat :=
  (((emptyRegions side b).filter (fun r => regionOwners side b r == [player])).map
    (fun r => r.length)).sum

/-- Modelled from the spec: a player's area score (§4.4) — stones on the
board plus enclosed territory. -/
def scoreOf (g : Game) (player : Nat) : Nat :=
  stonesOf g.side g.board player + territoryOf g.side g.board player

/-- Modelled from the spec: `scores` (§4.4) — a mapping from every player id
in `[1, players]` to that player's area score. -/
def scores (g : Game) : List (Nat × Nat) :=
  (List.range g.players).map (fun i => (i + 1, scoreOf g (i + 1)))

/-- Largest score in the `scores` mapping. -/
def maxScore (g : Game) : Nat := ((scores g).map Prod.snd).foldl max 0

/-- Modelled from the spec: `outcome` (§4.5) — empty while not done; once
done, the player ids achieving the maximum score, in ascending order. -/
def outcome (g : Game) : List Nat :=
  if done g then ((scores g).filter (fun pr => pr.2 == maxScore g)).map Prod.fst else []

/-- Modelled from the spec: the stand-in class `GoFake` of the missing
src/fakes.py (the spec lists it as an external collaborator, out of the
engine's scope).  Its observable state, as exercised by
src/tests/test_fake.py. -/
structure FakeGame where
  side : Nat
  players : Nat
  board : BoardGrid
  turn : Nat
  consecutivePasses : Nat
  ended : Bool
deriving DecidableEq

/-- Board with every empty cell filled with a stone of `player`, used by the
fake's game-ending move (test_fake_end_3). -/
def fillEmpty (b : BoardGrid) (player : Nat) : BoardGrid :=
  b.map (fun row => row.map (fun c => some (c.getD player)))

/-- Modelled from the spec: `GoFake.apply_move`, absent from src/ and pinned
down by src/tests/test_fake.py: a move at (0, 0) immediately ends the game,
skips capture processing, and fills every empty intersection with the moving
player's stone (test_fake_end_1..3); any other move places the stone and
captures every orthogonally adjacent opponent stone (test_capture_1..3). -/
def fakeApplyMove (g : FakeGame) (pos : Pos) : Except GoError FakeGame :=
  if inBounds g.side pos then
    if pos = ((0 : Int), (0 : Int)) then
      .ok { g with board := fillEmpty g.board g.turn, ended := true }
    else
      let placed := boardSet g.board pos (some g.turn)
      let caps := (orthNeighbors pos).filter
        (fun q => match cellAt g.side placed q with
                  | some o => o != g.turn
                  | none => false)
      .ok { g with board := removeAll placed caps,
                   turn := g.turn % g.players + 1, consecutivePasses := 0 }
  else .error .outOfBounds

/-- Modelled from the spec: `GoFake.done` — the game is over after the fake
game-ending move or after every player passed consecutively. -/
def fakeDone (g : FakeGame) : Bool := g.ended || (g.consecutivePasses == g.players)

/-- Fresh `GoFake` state, as constructed by `GoFake(side, players)`. -/
def newFakeGame (side players : Nat) : FakeGame :=
  { side := side, players := players, board := emptyBoard side, turn := 1,
    consecutivePasses := 0, ended := false }

/-- Apply a whole sequence of fake moves, stopping at the first error. -/
def fakePlayMoves (g : FakeGame) (moves : List Pos) : Except GoError FakeGame :=
  moves.foldlM fakeApplyMove g

/-- A stone of owner `o` sits at `p`. -/
def Stone (side : Nat) (b : BoardGrid) (o : Nat) (p : Pos) : Prop :=
  cellAt side b p = some o

/-- One step of group connectivity: `q` is an orthogonal neighbor of `p`
holding a stone of owner `o`. -/
def SameOwnerStep (side : Nat) (b : BoardGrid) (o : Nat) (p q : Pos) : Prop :=
  q ∈ orthNeighbors p ∧ Stone side b o q

/-- Connectivity through stones of owner `o`: the reflexive transitive
closure of same-owner orthogonal adjacency (the mathematical reading of the
spec's "maximal orthogonally-connected set of same-owner stones"). -/
def GroupConn (side : Nat) (b : BoardGrid) (o : Nat) : Pos → Pos → Prop :=
  Relation.ReflTransGen (SameOwnerStep side b o)

/-- Run a sequence of placements, keeping the original state on error. -/
def runMoves (g : Game) (ms : List Pos) : Game := (playMoves g ms).toOption.getD g

/-- Moves surrounding the lone white stone at (1,1) on all 4 orthogonal
sides (black's last move at (2,1) completes the surround). -/
def surroundMoves : List Pos := [(0,1),(1,1),(1,0),(4,4),(1,2),(4,3),(2,1)]

/-- Moves surrounding the white stone at (2,2) on its 4 diagonal sides
only. -/
def diagonalMoves : List Pos := [(1,1),(2,2),(1,3),(4,4),(3,1),(4,3),(3,3)]

/-- Moves after which white's (0,1) captures the two disjoint black groups
at (0,0) and at (0,2) in a single move. -/
def doubleCaptureMoves : List Pos := [(0,0),(1,0),(0,2),(1,2),(4,4),(0,3),(4,3),(0,1)]

/-- Moves reaching a classic ko shape on a 4×4 board: black's final move at
(1,2) captures the white stone at (1,1), so white retaking at (1,1) would
recreate the immediately preceding board. -/
def koMoves : List Pos := [(0,1),(0,2),(1,0),(1,3),(2,1),(2,2),(3,0),(1,1),(1,2)]

/-- The ko position: 4×4 game, simple ko, after `koMoves`. -/
def koGame : Game := runMoves (newGame 4 2 false) koMoves

/-- State used to instantiate the capture theorem: the surround sequence
without its final capturing move. -/
def preCaptureGame : Game := runMoves (newGame 5 2 false) (surroundMoves.take 6)

/-- Result of the final capturing move on `preCaptureGame`. -/
def postCaptureGame : Game :=
  (apply_move preCaptureGame ((2 : Int), (1 : Int))).toOption.getD preCaptureGame

/-- Grid where black's four stones enclose the center and the four corners
of a 3×3 board: black scores 4 stones + 5 territory, white scores 0. -/
def terrGrid : BoardGrid :=
  [[none, some 1, none], [some 1, none, some 1], [none, some 1, none]]

/-- Grid of test_scores_2: two black stones and one white stone in an open
5×5 position, so the single empty region borders both players and nobody
gets territory. -/
def mixedGrid : BoardGrid :=
  [[none, none, none, none, none],
   [none, some 1, some 1, none, some 2],
   [none, none, none, none, none],
   [none, none, none, none, none],
   [none, none, none, none, none]]

/-- Terminal game used by the outcome witness: both players pass at once. -/
def bothPassedGame : Game := pass_turn (pass_turn (newGame 3 2 false))

/-- Game obtained by loading `terrGrid` with player 2 to move. -/
def loadedTerrGame : Game :=
  (load_game (newGame 3 2 false) 2 terrGrid).toOption.getD (newGame 3 2 false)

/-- Fake game with four stones placed, about to receive the fake
game-ending move at (0, 0). -/
def preEndFakeGame : FakeGame :=
  (fakePlayMoves (newFakeGame 5 2) [(1,1),(2,2),(3,3),(4,4)]).toOption.getD (newFakeGame 5 2)

/-- Result of the fake game-ending move at (0,0) on `preEndFakeGame`. -/
def endedFakeGame : FakeGame :=
  (fakeApplyMove preEndFakeGame ((0 : Int), (0 : Int))).toOption.getD preEndFakeGame

/-! Basic facts about the board representation. -/

theorem inBounds_iff {side : Nat} {p : Pos} :
    inBounds side p = true ↔ 0 ≤ p.1 ∧ p.1 < (side : Int) ∧ 0 ≤ p.2 ∧ p.2 < (side : Int) := by
  simp [inBounds]

theorem inBounds_of_cellAt_some {side : Nat} {b : BoardGrid} {p : Pos} {o : Nat}
    (h : cellAt side b p = some o) : inBounds side p = true := by
  by_contra hn
  rw [cellAt, if_neg (by simpa using hn)] at h
  exact Option.noConfusion h

theorem pos_eq_of_toNat {side : Nat} {p q : Pos} (hp : inBounds side p = true)
    (hq : inBounds side q = true) (h1 : p.1.toNat = q.1.toNat) (h2 : p.2.toNat = q.2.toNat) :
    p = q := by
  rw [inBounds_iff] at hp hq
  obtain ⟨hp1, -, hp2, -⟩ := hp
  obtain ⟨hq1, -, hq2, -⟩ := hq
  exact Prod.ext (by omega) (by omega)

theorem wellFormed_emptyBoard (side : Nat) : WellFormed side (emptyBoard side) := by
  refine ⟨by simp [emptyBoard], ?_⟩
  intro row hrow
  rw [List.eq_of_mem_replicate hrow]
  simp

theorem cellAt_emptyBoard (side : Nat) (p : Pos) : cellAt side (emptyBoard side) p = none := by
  rw [cellAt]
  split
  · by_cases h1 : p.1.toNat < side
    · by_cases h2 : p.2.toNat < side
      · simp [emptyBoard, List.getElem?_replicate, h1, h2]
      · simp [emptyBoard, List.getElem?_replicate, h1, h2]
    · simp [emptyBoard, List.getElem?_replicate, h1]
  · rfl

theorem wellFormed_boardSet {side : Nat} {b : BoardGrid} (hwf : WellFormed side b)
    (p : Pos) (v : Cell) : WellFormed side (boardSet b p v) := by
  rw [boardSet]
  cases hrow : b[p.1.toNat]? with
  | none => exact hwf
  | some row =>
    refine ⟨by simpa using hwf.1, ?_⟩
    intro r hr
    rcases List.mem_or_eq_of_mem_set hr with h | h
    · exact hwf.2 r h
    · rw [h]
      simpa using hwf.2 row (List.getElem?_mem hrow)

theorem cellAt_boardSet {side : Nat} {b : BoardGrid} (hwf : WellFormed side b)
    {p : Pos} (hp : inBounds side p = true) (v : Cell) (q : Pos) :
    cellAt side (boardSet b p v) q = if q = p then v else cellAt side b q := by
  have hpN := inBounds_iff.mp hp
  have hrowlt : p.1.toNat < b.length := by rw [hwf.1]; omega
  have hrow : b[p.1.toNat]? = some b[p.1.toNat] :=
    (List.getElem?_eq_some_getElem_iff b p.1.toNat hrowlt).mpr trivial
  have hrowlen : b[p.1.toNat].length = side := hwf.2 _ (List.getElem?_mem hrow)
  have hcollt : p.2.toNat < b[p.1.toNat].length := by rw [hrowlen]; omega
  rw [boardSet, hrow]
  by_cases hqp : q = p
  · subst hqp
    rw [if_pos rfl, cellAt, if_pos hp, List.getElem?_set_self hrowlt]
    simp [List.getElem?_set_self hcollt]
  · rw [if_neg hqp]
    by_cases hqb : inBounds side q
    · rw [cellAt, cellAt, if_pos hqb, if_pos hqb]
      by_cases hre : q.1.toNat = p.1.toNat
      · have hce : q.2.toNat ≠ p.2.toNat := fun hc =>
          hqp (pos_eq_of_toNat hqb hp hre hc)
        rw [hre, List.getElem?_set_self hrowlt, hrow]
        simp [List.getElem?_set_ne (fun hc => hce hc.symm)]
      · rw [List.getElem?_set_ne (fun hc => hre hc.symm)]
    · rw [cellAt, cellAt, if_neg (by simpa using hqb), if_neg (by simpa using hqb)]

theorem cellAt_removeAll {side : Nat} :
    ∀ (ps : List Pos) (b : BoardGrid), WellFormed side b →
      (∀ q ∈ ps, inBounds side q = true) → ∀ p : Pos,
      cellAt side (removeAll b ps) p = if p ∈ ps then none else cellAt side b p := by
  intro ps
  induction ps with
  | nil => intro b _ _ p; simp [removeAll]
  | cons q qs ih =>
    intro b hwf hin p
    have hq : inBounds side q = true := hin q (List.mem_cons_self q qs)
    have hwfq : WellFormed side (boardSet b q none) := wellFormed_boardSet hwf q none
    have hstep : removeAll b (q :: qs) = removeAll (boardSet b q none) qs := rfl
    rw [hstep, ih _ hwfq (fun r hr => hin r (List.mem_cons_of_mem q hr))]
    by_cases hps : p ∈ qs
    · simp [hps]
    · by_cases hpq : p = q
      · subst hpq
        simp [hps, cellAt_boardSet hwf hq]
      · simp [hps, hpq, cellAt_boardSet hwf hq]

theorem wellFormed_removeAll {side : Nat} :
    ∀ (ps : List Pos) (b : BoardGrid), WellFormed side b →
      WellFormed side (removeAll b ps) := by
  intro ps
  induction ps with
  | nil => intro b hwf; exact hwf
  | cons q qs ih => intro b hwf; exact ih _ (wellFormed_boardSet hwf q none)

/-! Facts about `allPositions`. -/

theorem mem_allPositions {side : Nat} {p : Pos} :
    p ∈ allPositions side ↔ inBounds side p = true := by
  rw [inBounds_iff, allPositions]
  constructor
  · intro h
    obtain ⟨r, hr, h2⟩ := List.mem_flatMap.mp h
    obtain ⟨c, hc, h3⟩ := List.mem_map.mp h2
    rw [List.mem_range] at hr hc
    subst h3
    refine ⟨?_, ?_, ?_, ?_⟩ <;> simp <;> omega
  · rintro ⟨h1, h2, h3, h4⟩
    refine List.mem_flatMap.mpr ⟨p.1.toNat, ?_, List.mem_map.mpr ⟨p.2.toNat, ?_, ?_⟩⟩
    · rw [List.mem_range]; omega
    · rw [List.mem_range]; omega
    · exact Prod.ext (by simp [Int.toNat_of_nonneg h1]) (by simp [Int.toNat_of_nonneg h3])

theorem length_allPositions (side : Nat) : (allPositions side).length = side * side := by
  rw [allPositions, List.length_flatMap]
  simp [Function.comp_def]

theorem nodup_allPositions (side : Nat) : (allPositions side).Nodup := by
  rw [allPositions, List.nodup_flatMap]
  constructor
  · intro r _
    refine List.Nodup.map ?_ (List.nodup_range side)
    intro a b hab
    simpa using congrArg Prod.snd hab
  · refine List.Pairwise.imp ?_ (List.pairwise_lt_range side)
    intro a b hab p hpa hpb
    simp only [List.mem_map, List.mem_range] at hpa hpb
    obtain ⟨c1, -, hc1⟩ := hpa
    obtain ⟨c2, -, hc2⟩ := hpb
    have h3 : Int.ofNat a = Int.ofNat b := congrArg Prod.fst (hc1.trans hc2.symm)
    have h4 : a = b := Int.ofNat.inj h3
    omega

/-! The flood-fill machinery shared by the Group Analyzer and the Scoring
Engine: `saturate (expandBy keep)` reaches an actual fixpoint within
`side * side` rounds, and that fixpoint is exactly the connected closure of
the start set. -/

theorem subset_expandBy (keep : Pos → Bool) (s : List Pos) : s ⊆ expandBy keep s :=
  fun _ hx => List.mem_append_left _ hx

theorem mem_expandBy {keep : Pos → Bool} {s : List Pos} {q : Pos} :
    q ∈ expandBy keep s ↔ q ∈ s ∨ (keep q = true ∧ ∃ x ∈ s, q ∈ orthNeighbors x) := by
  rw [expandBy]
  constructor
  · intro h
    rcases List.mem_append.mp h with h | h
    · exact Or.inl h
    · obtain ⟨hmem, hcond⟩ := List.mem_filter.mp (List.mem_dedup.mp h)
      rw [Bool.and_eq_true] at hcond
      obtain ⟨hk, -⟩ := hcond
      exact Or.inr ⟨hk, List.mem_flatMap.mp hmem⟩
  · intro h
    rcases h with h | ⟨hk, x, hx, hq⟩
    · exact List.mem_append_left _ h
    · by_cases hqs : q ∈ s
      · exact List.mem_append_left _ hqs
      · refine List.mem_append_right _ (List.mem_dedup.mpr (List.mem_filter.mpr ⟨?_, ?_⟩))
        · exact List.mem_flatMap.mpr ⟨x, hx, hq⟩
        · simp [hk, hqs]

theorem nodup_expandBy {keep : Pos → Bool} {s : List Pos} (h : s.Nodup) :
    (expandBy keep s).Nodup := by
  rw [expandBy]
  refine List.Nodup.append h (List.nodup_dedup _) ?_
  intro q hqs hqd
  have hcond := (List.mem_filter.mp (List.mem_dedup.mp hqd)).2
  rw [Bool.and_eq_true] at hcond
  obtain ⟨-, hnc⟩ := hcond
  rw [Bool.not_eq_true'] at hnc
  exact absurd (List.elem_iff.mpr hqs) (by simpa using hnc)

theorem expandBy_subset_all {side : Nat} {keep : Pos → Bool}
    (hkeep : ∀ q, keep q = true → q ∈ allPositions side) {s : List Pos}
    (hs : s ⊆ allPositions side) : expandBy keep s ⊆ allPositions side := by
  intro q hq
  rcases mem_expandBy.mp hq with h | ⟨hk, -⟩
  · exact hs h
  · exact hkeep q hk

theorem subset_saturate {f : List Pos → List Pos} (hf : ∀ t, t ⊆ f t) :
    ∀ (fuel : Nat) (s : List Pos), s ⊆ saturate f fuel s := by
  intro fuel
  induction fuel with
  | zero => intro s; exact fun x hx => hx
  | succ n ih =>
    intro s
    show s ⊆ if f s = s then s else saturate f n (f s)
    split
    · exact fun x hx => hx
    · exact fun x hx => ih (f s) (hf s hx)

theorem saturate_inv {f : List Pos → List Pos} {P : List Pos → Prop}
    (hf : ∀ t, P t → P (f t)) :
    ∀ (fuel : Nat) (s : List Pos), P s → P (saturate f fuel s) := by
  intro fuel
  induction fuel with
  | zero => intro s h; exact h
  | succ n ih =>
    intro s h
    show P (if f s = s then s else saturate f n (f s))
    split
    · exact h
    · exact ih (f s) (hf s h)

theorem saturate_fixpoint {side : Nat} {keep : Pos → Bool}
    (hkeep : ∀ q, keep q = true → q ∈ allPositions side) :
    ∀ (fuel : Nat) (s : List Pos), s.Nodup → s ⊆ allPositions side →
      side * side < fuel + s.length + 1 →
      expandBy keep (saturate (expandBy keep) fuel s) = saturate (expandBy keep) fuel s := by
  intro fuel
  induction fuel with
  | zero =>
    intro s hnd hsub hlen
    have hsp : s.Subperm (allPositions side) := List.subperm_of_subset hnd hsub
    have hle : s.length ≤ side * side := by
      have := hsp.length_le
      rwa [length_allPositions] at this
    have hperm : s.Perm (allPositions side) :=
      hsp.perm_of_length_le (by rw [length_allPositions]; omega)
    show expandBy keep s = s
    rw [expandBy]
    have hnil : ((s.flatMap orthNeighbors).filter
        (fun q => keep q && !(s.contains q))).dedup = [] := by
      rw [List.dedup_eq_nil, List.filter_eq_nil_iff]
      intro q hq hcond
      rw [Bool.and_eq_true] at hcond
      obtain ⟨hk, hnc⟩ := hcond
      rw [Bool.not_eq_true'] at hnc
      have hqs : q ∈ s := (hperm.mem_iff).mpr (hkeep q hk)
      exact absurd (List.elem_iff.mpr hqs) (by simpa using hnc)
    rw [hnil, List.append_nil]
  | succ n ih =>
    intro s hnd hsub hlen
    show expandBy keep (if expandBy keep s = s then s
        else saturate (expandBy keep) n (expandBy keep s)) =
      (if expandBy keep s = s then s else saturate (expandBy keep) n (expandBy keep s))
    split
    · rename_i hfix
      rw [hfix]
    · rename_i hne
      have hnd2 : (expandBy keep s).Nodup := nodup_expandBy hnd
      have hsub2 : expandBy keep s ⊆ allPositions side := expandBy_subset_all hkeep hsub
      have hlen2 : s.length < (expandBy keep s).length := by
        rw [expandBy] at hne ⊢
        cases ht : ((s.flatMap orthNeighbors).filter
            (fun q => keep q && !(s.contains q))).dedup with
        | nil => exact absurd (by rw [ht, List.append_nil]) hne
        | cons a l =>
          rw [List.length_append]
          simp
      exact ih (expandBy keep s) hnd2 hsub2 (by omega)

/-! Correctness of the Group Analyzer: `groupOf` computes exactly the
connected component of its start through stones of the same owner. -/

theorem orthNeighbors_symm {p q : Pos} (h : q ∈ orthNeighbors p) : p ∈ orthNeighbors q := by
  have hcases : q = (p.1 - 1, p.2) ∨ q = (p.1 + 1, p.2) ∨
      q = (p.1, p.2 - 1) ∨ q = (p.1, p.2 + 1) := by
    simpa [orthNeighbors] using h
  have hgoal : p = (q.1 - 1, q.2) ∨ p = (q.1 + 1, q.2) ∨
      p = (q.1, q.2 - 1) ∨ p = (q.1, q.2 + 1) → p ∈ orthNeighbors q := by
    intro hg
    simpa [orthNeighbors] using hg
  apply hgoal
  rcases hcases with h | h | h | h <;> subst h <;> simp [Prod.ext_iff]

theorem stone_of_groupConn {side : Nat} {b : BoardGrid} {o : Nat} {p q : Pos}
    (h : GroupConn side b o p q) (hp : Stone side b o p) : Stone side b o q := by
  induction h with
  | refl => exact hp
  | tail _ step _ => exact step.2

theorem groupConn_symm {side : Nat} {b : BoardGrid} {o : Nat} {p q : Pos}
    (hp : Stone side b o p) (h : GroupConn side b o p q) : GroupConn side b o q p := by
  induction h with
  | refl => exact Relation.ReflTransGen.refl
  | tail hab step ih =>
    exact Relation.ReflTransGen.head
      ⟨orthNeighbors_symm step.1, stone_of_groupConn hab hp⟩ ih

theorem groupOf_sound {side : Nat} {b : BoardGrid} {o : Nat} {p : Pos}
    (hp : cellAt side b p = some o) :
    ∀ q ∈ groupOf side b p, Stone side b o q ∧ GroupConn side b o p q := by
  have base : ∀ x ∈ [p], Stone side b o x ∧ GroupConn side b o p x := by
    intro x hx
    rw [List.mem_singleton] at hx
    subst hx
    exact ⟨hp, Relation.ReflTransGen.refl⟩
  have step : ∀ t, (∀ x ∈ t, Stone side b o x ∧ GroupConn side b o p x) →
      ∀ x ∈ expandBy (fun q => cellAt side b q == some o) t,
        Stone side b o x ∧ GroupConn side b o p x := by
    intro t ht x hx
    rcases mem_expandBy.mp hx with h | ⟨hk, y, hy, hxy⟩
    · exact ht x h
    · have hstone : Stone side b o x := by rwa [Stone, ← beq_iff_eq (a := cellAt side b x)]
      exact ⟨hstone, Relation.ReflTransGen.tail (ht y hy).2 ⟨hxy, hstone⟩⟩
  intro q hq
  rw [groupOf, hp] at hq
  exact saturate_inv step (side * side) [p] base q hq

theorem mem_groupOf_self {side : Nat} {b : BoardGrid} {o : Nat} {p : Pos}
    (hp : cellAt side b p = some o) : p ∈ groupOf side b p := by
  rw [groupOf, hp]
  exact subset_saturate (fun t => subset_expandBy _ t) (side * side) [p]
    (List.mem_singleton_self p)

theorem groupOf_fixpoint {side : Nat} {b : BoardGrid} {o : Nat} {p : Pos}
    (hp : cellAt side b p = some o) :
    expandBy (fun q => cellAt side b q == some o) (groupOf side b p) = groupOf side b p := by
  have hkeep : ∀ q, (cellAt side b q == some o) = true → q ∈ allPositions side := by
    intro q hq
    rw [beq_iff_eq] at hq
    exact mem_allPositions.mpr (inBounds_of_cellAt_some hq)
  have hstart : [p] ⊆ allPositions side := by
    intro x hx
    rw [List.mem_singleton] at hx
    subst hx
    exact mem_allPositions.mpr (inBounds_of_cellAt_some hp)
  rw [groupOf, hp]
  exact saturate_fixpoint hkeep (side * side) [p] (List.nodup_singleton p) hstart
    (by simp; omega)

theorem groupOf_complete {side : Nat} {b : BoardGrid} {o : Nat} {p : Pos}
    (hp : cellAt side b p = some o) :
    ∀ q, GroupConn side b o p q → q ∈ groupOf side b p := by
  intro q hconn
  induction hconn with
  | refl => exact mem_groupOf_self hp
  | tail hab step ih =>
    rename_i x y
    by_cases hy : y ∈ groupOf side b p
    · exact hy
    · have hmem : y ∈ expandBy (fun r => cellAt side b r == some o) (groupOf side b p) :=
        mem_expandBy.mpr (Or.inr ⟨by rw [beq_iff_eq]; exact step.2, x, ih, step.1⟩)
      rwa [groupOf_fixpoint hp] at hmem

theorem mem_groupOf {side : Nat} {b : BoardGrid} {o : Nat} {p q : Pos}
    (hp : cellAt side b p = some o) :
    q ∈ groupOf side b p ↔ GroupConn side b o p q :=
  ⟨fun h => (groupOf_sound hp q h).2, groupOf_complete hp q⟩

theorem groupOf_congr_mem {side : Nat} {b : BoardGrid} {o : Nat} {p q : Pos}
    (hp : cellAt side b p = some o) (hq : q ∈ groupOf side b p) :
    ∀ r, r ∈ groupOf side b p ↔ r ∈ groupOf side b q := by
  have hqo : cellAt side b q = some o := (groupOf_sound hp q hq).1
  have hconn : GroupConn side b o p q := (groupOf_sound hp q hq).2
  have hsymm : GroupConn side b o q p := groupConn_symm hp hconn
  intro r
  rw [mem_groupOf hp, mem_groupOf hqo]
  exact ⟨fun h => hsymm.trans h, fun h => hconn.trans h⟩

/-! Facts about liberties and captures. -/

theorem libertiesOf_eq_nil {side : Nat} {b : BoardGrid} {G : List Pos} :
    libertiesOf side b G = [] ↔
      ∀ r ∈ G, ∀ q ∈ orthNeighbors r,
        ¬(inBounds side q = true ∧ cellAt side b q = none) := by
  rw [libertiesOf, List.dedup_eq_nil, List.filter_eq_nil_iff]
  constructor
  · intro h r hr q hq hc
    exact h q (List.mem_flatMap.mpr ⟨r, hr, hq⟩) (by simp [hc.1, hc.2])
  · intro h q hq hcond
    obtain ⟨r, hr, hqn⟩ := List.mem_flatMap.mp hq
    rw [Bool.and_eq_true] at hcond
    exact h r hr q hqn ⟨hcond.1, by simpa using hcond.2⟩

theorem libertiesOf_nil_congr {side : Nat} {b : BoardGrid} {G1 G2 : List Pos}
    (h : ∀ r, r ∈ G1 ↔ r ∈ G2) :
    (libertiesOf side b G1 = [] ↔ libertiesOf side b G2 = []) := by
  rw [libertiesOf_eq_nil, libertiesOf_eq_nil]
  constructor
  · intro hh r hr q hq
    exact hh r ((h r).mpr hr) q hq
  · intro hh r hr q hq
    exact hh r ((h r).mp hr) q hq

theorem mem_capturedPositions {side : Nat} {b : BoardGrid} {pos : Pos} {player : Nat}
    {q : Pos} :
    q ∈ capturedPositions side b pos player ↔
      ∃ n ∈ orthNeighbors pos, ∃ o, cellAt side b n = some o ∧ o ≠ player ∧
        libertiesOf side b (groupOf side b n) = [] ∧ q ∈ groupOf side b n := by
  rw [capturedPositions, List.mem_flatMap]
  constructor
  · rintro ⟨n, hn, hq⟩
    cases hcell : cellAt side b n with
    | none =>
      rw [hcell] at hq
      exact absurd (hq : q ∈ ([] : List Pos)) (List.not_mem_nil q)
    | some o =>
      rw [hcell] at hq
      have hq2 : q ∈ (if o ≠ player ∧ libertiesOf side b (groupOf side b n) = []
          then groupOf side b n else []) := hq
      by_cases hcond : o ≠ player ∧ libertiesOf side b (groupOf side b n) = []
      · rw [if_pos hcond] at hq2
        exact ⟨n, hn, o, hcell, hcond.1, hcond.2, hq2⟩
      · rw [if_neg hcond] at hq2
        exact absurd hq2 (List.not_mem_nil q)
  · rintro ⟨n, hn, o, hcell, hne, hlib, hq⟩
    refine ⟨n, hn, ?_⟩
    rw [hcell]
    show q ∈ (if o ≠ player ∧ libertiesOf side b (groupOf side b n) = []
        then groupOf side b n else [])
    rw [if_pos ⟨hne, hlib⟩]
    exact hq

theorem capturedPositions_owner {side : Nat} {b : BoardGrid} {pos : Pos} {player : Nat}
    {q : Pos} (h : q ∈ capturedPositions side b pos player) :
    ∃ o, o ≠ player ∧ cellAt side b q = some o := by
  obtain ⟨n, hn, o, hcell, hne, hlib, hq⟩ := mem_capturedPositions.mp h
  exact ⟨o, hne, (groupOf_sound hcell q hq).1⟩

theorem capturedPositions_inBounds {side : Nat} {b : BoardGrid} {pos : Pos} {player : Nat} :
    ∀ q ∈ capturedPositions side b pos player, inBounds side q = true := by
  intro q h
  obtain ⟨o, -, hcell⟩ := capturedPositions_owner h
  exact inBounds_of_cellAt_some hcell

theorem cellAt_resolveMove {side : Nat} {b : BoardGrid} {pos : Pos} {player : Nat}
    (hwf : WellFormed side b) (r : Pos) :
    cellAt side (resolveMove side b pos player) r =
      if r ∈ capturedPositions side (boardSet b pos (some player)) pos player then none
      else cellAt side (boardSet b pos (some player)) r := by
  rw [resolveMove]
  exact cellAt_removeAll _ _ (wellFormed_boardSet hwf pos (some player))
    capturedPositions_inBounds r

theorem placed_not_captured {side : Nat} {b : BoardGrid} {pos : Pos} {player : Nat}
    (hwf : WellFormed side b) (hin : inBounds side pos = true) :
    pos ∉ capturedPositions side (boardSet b pos (some player)) pos player := by
  intro h
  obtain ⟨o, hne, hcell⟩ := capturedPositions_owner h
  rw [cellAt_boardSet hwf hin, if_pos rfl] at hcell
  exact hne (Option.some.inj hcell).symm

theorem not_captured_of_liberties {side : Nat} {b : BoardGrid} {pos : Pos} {player : Nat}
    {n : Pos} {o : Nat} (hcell : cellAt side b n = some o)
    (hlib : libertiesOf side b (groupOf side b n) ≠ []) :
    ∀ r ∈ groupOf side b n, r ∉ capturedPositions side b pos player := by
  intro r hr hcap
  obtain ⟨n2, hn2, o2, hcell2, hne2, hlib2, hr2⟩ := mem_capturedPositions.mp hcap
  have hsame1 := groupOf_congr_mem hcell hr
  have hsame2 := groupOf_congr_mem hcell2 hr2
  have hsame : ∀ s, s ∈ groupOf side b n ↔ s ∈ groupOf side b n2 := by
    intro s
    rw [hsame1 s, hsame2 s]
  exact hlib ((libertiesOf_nil_congr hsame).mpr hlib2)

/-- C7: for every legal position pos, after apply_move(pos), piece_at(pos)
returns the id of the player whose turn it was when the move was made, and
turn becomes the next player in the cyclic order 1..players..1, with
consecutive_passes reset to 0. -/
theorem apply_move_place_and_advance (g : Game) (pos : Pos)
    (hwf : WellFormed g.side g.board)
    (hin : inBounds g.side pos = true)
    (_hemp : cellAt g.side g.board pos = none)
    (hturn : 1 ≤ g.turn ∧ g.turn ≤ g.players) :
    ∃ h, apply_move g pos = .ok h ∧
      piece_at h pos = .ok (some g.turn) ∧
      h.consecutivePasses = 0 ∧
      h.turn = g.turn % g.players + 1 ∧
      1 ≤ h.turn ∧ h.turn ≤ g.players ∧
      (g.turn < g.players → h.turn = g.turn + 1) ∧
      (g.turn = g.players → h.turn = 1) := by
  have happ : apply_move g pos = .ok
      { g with board := resolveMove g.side g.board pos g.turn, turn := nextTurn g,
               consecutivePasses := 0,
               history := resolveMove g.side g.board pos g.turn :: g.history } := by
    rw [apply_move, if_pos hin]
  refine ⟨_, happ, ?_, rfl, rfl, ?_, ?_, ?_, ?_⟩
  · show piece_at
      { g with board := resolveMove g.side g.board pos g.turn, turn := nextTurn g,
               consecutivePasses := 0,
               history := resolveMove g.side g.board pos g.turn :: g.history } pos =
      .ok (some g.turn)
    rw [piece_at]
    show (if inBounds g.side pos then
        .ok (cellAt g.side (resolveMove g.side g.board pos g.turn) pos)
      else .error .outOfBounds : Except GoError Cell) = .ok (some g.turn)
    rw [if_pos hin, cellAt_resolveMove hwf, if_neg (placed_not_captured hwf hin),
      cellAt_boardSet hwf hin, if_pos rfl]
  · show 1 ≤ g.turn % g.players + 1
    omega
  · show g.turn % g.players + 1 ≤ g.players
    have hm : g.turn % g.players < g.players := Nat.mod_lt _ (by omega)
    omega
  · intro hlt
    show g.turn % g.players + 1 = g.turn + 1
    rw [Nat.mod_eq_of_lt hlt]
  · intro heq
    show g.turn % g.players + 1 = 1
    rw [heq, Nat.mod_self]

/-- C1: after apply_move places a stone at a legal position, an orthogonally
adjacent group owned by a different player is removed from the board iff
that group's liberty count is zero after the placement; a lone stone
surrounded on all 4 orthogonal sides by the opponent is captured, a stone
surrounded only on its 4 diagonal sides is not, and a single move may
capture multiple disjoint groups. -/
theorem capture_iff_zero_liberties :
    (∀ (g : Game) (pos n : Pos) (o : Nat) (h : Game) (placed : BoardGrid),
      WellFormed g.side g.board →
      inBounds g.side pos = true →
      cellAt g.side g.board pos = none →
      apply_move g pos = .ok h →
      placed = boardSet g.board pos (some g.turn) →
      n ∈ orthNeighbors pos →
      cellAt g.side placed n = some o →
      o ≠ g.turn →
      ((libertiesOf g.side placed (groupOf g.side placed n) = [] ↔
          ∀ r ∈ groupOf g.side placed n, cellAt g.side h.board r = none) ∧
        (libertiesOf g.side placed (groupOf g.side placed n) ≠ [] →
          ∀ r ∈ groupOf g.side placed n,
            cellAt g.side h.board r = cellAt g.side placed r))) ∧
    cellAt 5 (runMoves (newGame 5 2 false) surroundMoves).board (1, 1) = none ∧
    cellAt 5 (runMoves (newGame 5 2 false) surroundMoves).board (2, 1) = some 1 ∧
    cellAt 5 (runMoves (newGame 5 2 false) diagonalMoves).board (2, 2) = some 2 ∧
    cellAt 5 (runMoves (newGame 5 2 false) doubleCaptureMoves).board (0, 0) = none ∧
    cellAt 5 (runMoves (newGame 5 2 false) doubleCaptureMoves).board (0, 2) = none ∧
    cellAt 5 (runMoves (newGame 5 2 false) doubleCaptureMoves).board (0, 1) = some 2 ∧
    cellAt 5 (runMoves (newGame 5 2 false) doubleCaptureMoves).board (4, 4) = some 1 := by
  refine ⟨?_, by decide, by decide, by decide, by decide, by decide, by decide, by decide⟩
  intro g pos n o h placed hwf hin hemp happ hplaced hn hcell hne
  have hwfp : WellFormed g.side placed := hplaced ▸ wellFormed_boardSet hwf pos (some g.turn)
  have hok : ({ g with board := resolveMove g.side g.board pos g.turn, turn := nextTurn g,
                        consecutivePasses := 0,
                        history := resolveMove g.side g.board pos g.turn :: g.history } :
      Game) = h := by
    have happ2 := happ
    rw [apply_move, if_pos hin] at happ2
    exact Except.ok.inj happ2
  have hboard : h.board = resolveMove g.side g.board pos g.turn :=
    (congrArg Game.board hok).symm
  have hres : ∀ r : Pos, cellAt g.side h.board r =
      if r ∈ capturedPositions g.side placed pos g.turn then none
      else cellAt g.side placed r := by
    intro r
    rw [hboard, hplaced]
    exact cellAt_resolveMove hwf r
  constructor
  · constructor
    · intro hlib r hr
      rw [hres r, if_pos]
      exact mem_capturedPositions.mpr ⟨n, hn, o, hcell, hne, hlib, hr⟩
    · intro hall
      by_contra hlib
      have hself : n ∈ groupOf g.side placed n := mem_groupOf_self hcell
      have hsurv : cellAt g.side h.board n = cellAt g.side placed n := by
        rw [hres n, if_neg (not_captured_of_liberties hcell hlib n hself)]
      rw [hall n hself, hcell] at hsurv
      exact Option.noConfusion hsurv
  · intro hlib r hr
    rw [hres r, if_neg (not_captured_of_liberties hcell hlib r hr)]

/-- C1 witness: the general capture criterion instantiated on the surround
scenario one move before the capture: player 2's lone stone at (1,1) has
liberty count zero once player 1 plays (2,1), and is indeed removed. -/
theorem capture_iff_zero_liberties_witness :
    ∀ r ∈ groupOf 5 (boardSet preCaptureGame.board ((2 : Int), (1 : Int)) (some 1))
        ((1 : Int), (1 : Int)),
      cellAt 5 postCaptureGame.board r = none := by
  have h := capture_iff_zero_liberties.1 preCaptureGame ((2 : Int), (1 : Int))
    ((1 : Int), (1 : Int)) 2 postCaptureGame
    (boardSet preCaptureGame.board ((2 : Int), (1 : Int)) (some 1))
    (by decide) (by decide) (by decide) rfl rfl (by decide)
    (by decide) (by decide)
  exact h.1.mp (by decide)

theorem koViolation_simple {g : Game} (hsk : g.superko = false) (hyp : BoardGrid) :
    koViolation g hyp = true ↔ g.history.tail.head? = some hyp := by
  rw [koViolation, hsk, if_neg (by simp)]
  cases g.history with
  | nil => simp
  | cons b1 rest =>
    cases rest with
    | nil => simp
    | cons b2 rest2 =>
      show (hyp == b2) = true ↔ (b2 :: rest2).head? = some hyp
      rw [beq_iff_eq, List.head?_cons]
      constructor
      · intro h
        rw [h]
      · intro h
        exact (Option.some.inj h).symm

theorem koViolation_superko {g : Game} (hsk : g.superko = true) (hyp : BoardGrid) :
    koViolation g hyp = true ↔ hyp ∈ g.history := by
  simp [koViolation, hsk, List.contains, List.elem_iff]

/-- C2: for every in-bounds position, legal_move rejects the move on ko
grounds as follows: with superko=false it returns false iff the
hypothetical board obtained by resolving the placement and its captures
equals the board exactly one ply before the current one, and with
superko=true iff that board equals any board previously recorded in
history. -/
theorem ko_rejection_iff (g : Game) (pos : Pos)
    (hin : inBounds g.side pos = true)
    (hemp : cellAt g.side g.board pos = none)
    (hsui : libertiesOf g.side (hypotheticalBoard g pos)
        (groupOf g.side (hypotheticalBoard g pos) pos) ≠ []) :
    (g.superko = false →
      (legal_move g pos = .ok false ↔
        g.history.tail.head? = some (hypotheticalBoard g pos))) ∧
    (g.superko = true →
      (legal_move g pos = .ok false ↔ hypotheticalBoard g pos ∈ g.history)) := by
  have hlm : legal_move g pos = .ok (!koViolation g (hypotheticalBoard g pos)) := by
    rw [legal_move, if_pos hin, if_neg (by simp [hemp])]
    show (if libertiesOf g.side (hypotheticalBoard g pos)
        (groupOf g.side (hypotheticalBoard g pos) pos) = [] then Except.ok false
      else Except.ok (!koViolation g (hypotheticalBoard g pos))) =
      Except.ok (!koViolation g (hypotheticalBoard g pos))
    rw [if_neg hsui]
  have hbool : legal_move g pos = .ok false ↔
      koViolation g (hypotheticalBoard g pos) = true := by
    rw [hlm]
    constructor
    · intro h
      have h2 := Except.ok.inj h
      simpa using h2
    · intro h
      rw [h]
      rfl
  constructor
  · intro hsk
    rw [hbool]
    exact koViolation_simple hsk (hypotheticalBoard g pos)
  · intro hsk
    rw [hbool]
    exact koViolation_superko hsk (hypotheticalBoard g pos)

/-- C2 witness: in the ko position `koGame` (simple ko), white retaking at
(1,1) recreates the board one ply back and is rejected. -/
theorem ko_rejection_iff_witness : legal_move koGame ((1 : Int), (1 : Int)) = .ok false := by
  have h := ko_rejection_iff koGame ((1 : Int), (1 : Int))
    (by decide) (by decide) (by decide)
  exact (h.1 (by decide)).mpr (by decide)

/-- C3: grid and simulate_move return independent copies: mutating the grid
snapshot never changes a subsequent piece_at answer, simulate_move applies
the move (or the pass) to a copy and the receiver value is untouched, and
chained simulations compose (two simulated passes reach a done state while
the original game is not done). -/
theorem simulate_move_pure :
    (∀ (g : Game) (p : Pos), simulate_move g (some p) = apply_move g p) ∧
    (∀ g : Game, simulate_move g none = .ok (pass_turn g)) ∧
    (∀ (g : Game) (mutate : BoardGrid → BoardGrid) (pos : Pos),
      (gridSnapshotScenario g mutate pos).2 = piece_at g pos) ∧
    ((simulate_move (newGame 19 2 false) none).bind
        (fun a => simulate_move a none)).map done = .ok true ∧
    done (newGame 19 2 false) = false ∧
    (simulate_move (newGame 19 2 false) (some ((5 : Int), (5 : Int)))).map
        (fun a => (cellAt 19 a.board (5, 5), a.turn)) = .ok (some 1, 2) := by
  exact ⟨fun g p => rfl, fun g => rfl, fun g m pos => rfl, rfl, rfl, rfl⟩

/-- C4: pass_turn advances the turn cyclically and increments the
consecutive-pass count; done is true iff consecutive_passes equals players;
two consecutive passes of two players end the game, while any placement in
between resets the count to 0 and keeps the game non-terminal. -/
theorem pass_turn_termination :
    (∀ g : Game, (done g = true ↔ g.consecutivePasses = g.players) ∧
      (pass_turn g).turn = g.turn % g.players + 1 ∧
      (pass_turn g).consecutivePasses = g.consecutivePasses + 1) ∧
    (∀ (g : Game) (pos : Pos) (h : Game), apply_move g pos = .ok h →
      h.consecutivePasses = 0) ∧
    done (pass_turn (pass_turn (newGame 19 2 false))) = true ∧
    done (pass_turn (pass_turn (newGame 19 3 false))) = false ∧
    (runMoves (pass_turn (newGame 5 2 false)) [(1, 1)]).consecutivePasses = 0 ∧
    done (pass_turn (runMoves (pass_turn (newGame 5 2 false)) [(1, 1)])) = false := by
  refine ⟨fun g => ⟨beq_iff_eq, rfl, rfl⟩, ?_, rfl, rfl, by decide, by decide⟩
  intro g pos h happ
  rw [apply_move] at happ
  split at happ
  · rw [← Except.ok.inj happ]
  · exact Except.noConfusion happ

/-- C4 witness: the placement part instantiated concretely — a move right
after a pass resets the consecutive-pass count to 0. -/
theorem pass_turn_termination_witness :
    (runMoves (pass_turn (newGame 3 2 false)) [(0, 0)]).consecutivePasses = 0 :=
  pass_turn_termination.2.1 (pass_turn (newGame 3 2 false)) ((0 : Int), (0 : Int))
    (runMoves (pass_turn (newGame 3 2 false)) [(0, 0)]) rfl

theorem legal_move_eq {g : Game} {pos : Pos} (hb : inBounds g.side pos = true) :
    legal_move g pos =
      if cellAt g.side g.board pos ≠ none then .ok false
      else if libertiesOf g.side (hypotheticalBoard g pos)
          (groupOf g.side (hypotheticalBoard g pos) pos) = [] then .ok false
      else .ok (!koViolation g (hypotheticalBoard g pos)) := by
  rw [legal_move, if_pos hb]

theorem legal_move_isOk {g : Game} {pos : Pos} (hb : inBounds g.side pos = true) :
    ∃ b, legal_move g pos = .ok b := by
  rw [legal_move_eq hb]
  split
  · exact ⟨false, rfl⟩
  · split
    · exact ⟨false, rfl⟩
    · exact ⟨_, rfl⟩

/-- C8: piece_at, legal_move, apply_move, and simulate_move raise the
out-of-bounds ValueError iff the given position is outside
[0,side)×[0,side); for every in-bounds position these operations do not
raise, no other error kind is ever produced by them, and a simulated pass
never raises. -/
theorem bounds_error_iff (g : Game) (pos : Pos) :
    ((∃ e, piece_at g pos = .error e) ↔ inBounds g.side pos = false) ∧
    (∀ e, piece_at g pos = .error e → e = .outOfBounds) ∧
    ((∃ e, legal_move g pos = .error e) ↔ inBounds g.side pos = false) ∧
    (∀ e, legal_move g pos = .error e → e = .outOfBounds) ∧
    ((∃ e, apply_move g pos = .error e) ↔ inBounds g.side pos = false) ∧
    (∀ e, apply_move g pos = .error e → e = .outOfBounds) ∧
    ((∃ e, simulate_move g (some pos) = .error e) ↔ inBounds g.side pos = false) ∧
    (∀ e, simulate_move g (some pos) = .error e → e = .outOfBounds) ∧
    (∀ e, simulate_move g none ≠ .error e) := by
  have hsim : simulate_move g (some pos) = apply_move g pos := rfl
  have hpass : simulate_move g none = .ok (pass_turn g) := rfl
  by_cases hb : inBounds g.side pos = true
  · have hpa : piece_at g pos = .ok (cellAt g.side g.board pos) := by
      rw [piece_at, if_pos hb]
    have ham : apply_move g pos = .ok
        { g with board := resolveMove g.side g.board pos g.turn, turn := nextTurn g,
                 consecutivePasses := 0,
                 history := resolveMove g.side g.board pos g.turn :: g.history } := by
      rw [apply_move, if_pos hb]
    obtain ⟨lb, hlm⟩ := legal_move_isOk hb
    refine ⟨?_, ?_, ?_, ?_, ?_, ?_, ?_, ?_, ?_⟩ <;>
      simp [hpa, ham, hlm, hsim, hpass, hb]
  · have hbf : inBounds g.side pos = false := by
      cases h : inBounds g.side pos
      · rfl
      · exact absurd h hb
    have hpa : piece_at g pos = .error .outOfBounds := by
      rw [piece_at, if_neg (by simp [hbf])]
    have hlm : legal_move g pos = .error .outOfBounds := by
      rw [legal_move, if_neg (by simp [hbf])]
    have ham : apply_move g pos = .error .outOfBounds := by
      rw [apply_move, if_neg (by simp [hbf])]
    refine ⟨?_, ?_, ?_, ?_, ?_, ?_, ?_, ?_, ?_⟩ <;>
      simp [hpa, ham, hlm, hsim, hpass, hbf, eq_comm]

/-- C8 witness: on a 19×19 board, position (19,5) raises the out-of-bounds
error for piece_at while (5,5) does not. -/
theorem bounds_error_iff_witness :
    (∃ e, piece_at (newGame 19 2 false) ((19 : Int), (5 : Int)) = .error e) ∧
    ¬(∃ e, piece_at (newGame 19 2 false) ((5 : Int), (5 : Int)) = .error e) := by
  constructor
  · exact (bounds_error_iff (newGame 19 2 false) (19, 5)).1.mpr (by decide)
  · intro h
    have h2 := (bounds_error_iff (newGame 19 2 false) (5, 5)).1.mp h
    exact absurd h2 (by decide)

/-- C9: load_game(turn, grid) fails with the InvalidArgument ValueError iff
turn is outside [1,players], the grid's dimensions differ from side×side,
or some occupied cell's owner is outside [1,players]; on success the board
and turn are replaced, passes reset to 0, and the history becomes a single
entry holding only the loaded board. -/
theorem load_game_validation (g : Game) (t : Nat) (b : BoardGrid) :
    (load_game g t b = .error .invalidArgument ↔
      ¬((1 ≤ t ∧ t ≤ g.players) ∧ WellFormed g.side b ∧
        ∀ row ∈ b, ∀ c ∈ row, ∀ v, c = some v → 1 ≤ v ∧ v ≤ g.players)) ∧
    (∀ h, load_game g t b = .ok h →
      h.board = b ∧ h.turn = t ∧ h.consecutivePasses = 0 ∧ h.history = [b] ∧
      h.side = g.side ∧ h.players = g.players ∧ h.superko = g.superko) := by
  constructor
  · rw [load_game]
    split
    · rename_i hv
      constructor
      · intro h
        exact Except.noConfusion h
      · intro hn
        exact absurd hv hn
    · rename_i hv
      constructor
      · intro _
        exact hv
      · intro _
        rfl
  · intro h hok
    rw [load_game] at hok
    split at hok
    · rw [← Except.ok.inj hok]
      exact ⟨rfl, rfl, rfl, rfl, rfl, rfl, rfl⟩
    · exact Except.noConfusion hok

/-- C9 witness: loading terrGrid with turn 5 on a 3×3 two-player game is
rejected, while loading it with turn 2 succeeds and installs the grid,
resets passes and collapses history to the loaded board. -/
theorem load_game_validation_witness :
    load_game (newGame 3 2 false) 5 terrGrid = .error .invalidArgument ∧
    loadedTerrGame.board = terrGrid ∧ loadedTerrGame.turn = 2 ∧
    loadedTerrGame.consecutivePasses = 0 ∧ loadedTerrGame.history = [terrGrid] := by
  constructor
  · exact (load_game_validation (newGame 3 2 false) 5 terrGrid).1.mpr (by decide)
  · have h := (load_game_validation (newGame 3 2 false) 2 terrGrid).2 loadedTerrGame rfl
    exact ⟨h.1, h.2.1, h.2.2.1, h.2.2.2.1⟩

/-! Facts about maxima of score lists. -/

theorem le_foldl_max (l : List Nat) (b : Nat) : b ≤ l.foldl max b := by
  induction l generalizing b with
  | nil => exact Nat.le_refl b
  | cons x xs ih => exact Nat.le_trans (Nat.le_max_left b x) (ih (max b x))

theorem mem_le_foldl_max {l : List Nat} {a : Nat} (h : a ∈ l) (b : Nat) :
    a ≤ l.foldl max b := by
  induction l generalizing b with
  | nil => cases h
  | cons x xs ih =>
    rcases List.mem_cons.mp h with rfl | h2
    · exact Nat.le_trans (Nat.le_max_right b a) (le_foldl_max xs (max b a))
    · exact ih h2 (max b x)

theorem foldl_max_le {l : List Nat} {c : Nat} (hb : ∀ a ∈ l, a ≤ c) {b : Nat}
    (hbc : b ≤ c) : l.foldl max b ≤ c := by
  induction l generalizing b with
  | nil => exact hbc
  | cons x xs ih =>
    exact ih (fun a ha => hb a (List.mem_cons_of_mem x ha))
      (max_le hbc (hb x (List.mem_cons_self x xs)))

theorem mem_scores_iff {g : Game} {pr : Nat × Nat} :
    pr ∈ scores g ↔ ∃ i, i < g.players ∧ pr = (i + 1, scoreOf g (i + 1)) := by
  rw [scores]
  constructor
  · intro h
    obtain ⟨i, hi, he⟩ := List.mem_map.mp h
    exact ⟨i, List.mem_range.mp hi, he.symm⟩
  · rintro ⟨i, hi, rfl⟩
    exact List.mem_map.mpr ⟨i, List.mem_range.mpr hi, rfl⟩

/-- C5: outcome is the empty list whenever the game is not done; once done,
outcome is the ascending-sorted list of every player id achieving the
maximum score (so ties yield all tied players, unbroken). -/
theorem outcome_max_players (g : Game) :
    (done g = false → outcome g = []) ∧
    (done g = true →
      List.Sorted (· < ·) (outcome g) ∧
      ∀ pl : Nat, (pl ∈ outcome g ↔
        1 ≤ pl ∧ pl ≤ g.players ∧
        ∀ q, 1 ≤ q → q ≤ g.players → scoreOf g q ≤ scoreOf g pl)) := by
  have hsnd : ∀ q, 1 ≤ q → q ≤ g.players → scoreOf g q ∈ (scores g).map Prod.snd := by
    intro q h1 h2
    exact List.mem_map.mpr ⟨(q, scoreOf g q),
      mem_scores_iff.mpr ⟨q - 1, by omega, by rw [Nat.sub_add_cancel h1]⟩, rfl⟩
  constructor
  · intro hnd
    rw [outcome, if_neg (by simp [hnd])]
  · intro hd
    have hout : outcome g =
        ((scores g).filter (fun pr => pr.2 == maxScore g)).map Prod.fst := by
      rw [outcome, if_pos hd]
    constructor
    · rw [hout]
      have h1 : (List.range g.players).Pairwise (· < ·) := List.pairwise_lt_range g.players
      have h2 : (scores g).Pairwise (fun a b => a.1 < b.1) := by
        rw [scores]
        exact List.Pairwise.map _ (fun a b hab => by simpa using hab) h1
      have h3 := List.Pairwise.filter (fun pr => pr.2 == maxScore g) h2
      exact List.Pairwise.map _ (fun a b hab => hab) h3
    · intro pl
      rw [hout]
      constructor
      · intro h
        obtain ⟨pr, hpr, hfst⟩ := List.mem_map.mp h
        obtain ⟨hmem, hbeq⟩ := List.mem_filter.mp hpr
        obtain ⟨i, hi, rfl⟩ := mem_scores_iff.mp hmem
        have hpl : i + 1 = pl := hfst
        have hmax : scoreOf g (i + 1) = maxScore g := by
          have := hbeq
          rwa [beq_iff_eq] at this
        subst hpl
        refine ⟨by omega, by omega, ?_⟩
        intro q h1 h2
        have hqle : scoreOf g q ≤ maxScore g := mem_le_foldl_max (hsnd q h1 h2) 0
        rw [← hmax] at hqle
        exact hqle
      · rintro ⟨h1, h2, hdom⟩
        have hmem : (pl, scoreOf g pl) ∈ scores g :=
          mem_scores_iff.mpr ⟨pl - 1, by omega, by rw [Nat.sub_add_cancel h1]⟩
        have hle : scoreOf g pl ≤ maxScore g := mem_le_foldl_max (hsnd pl h1 h2) 0
        have hge : maxScore g ≤ scoreOf g pl := by
          rw [maxScore]
          refine foldl_max_le ?_ (Nat.zero_le _)
          intro a ha
          obtain ⟨pr, hpr, hsnd2⟩ := List.mem_map.mp ha
          obtain ⟨i, hi, rfl⟩ := mem_scores_iff.mp hpr
          rw [← hsnd2]
          exact hdom (i + 1) (by omega) (by omega)
        have heq : scoreOf g pl = maxScore g := Nat.le_antisymm hle hge
        exact List.mem_map.mpr ⟨(pl, scoreOf g pl),
          List.mem_filter.mpr ⟨hmem, by rw [beq_iff_eq]; exact heq⟩, rfl⟩

/-- C5 witness: with both players passed on an empty 3×3 board, the outcome
is sorted ascending and contains player 1 (both players tie at zero). -/
theorem outcome_max_players_witness :
    List.Sorted (· < ·) (outcome bothPassedGame) ∧ 1 ∈ outcome bothPassedGame := by
  have h := (outcome_max_players bothPassedGame).2 (by decide)
  refine ⟨h.1, (h.2 1).mpr ⟨by decide, by decide, ?_⟩⟩
  intro q h1 h2
  have h2b : q ≤ 2 := h2
  interval_cases q
  · decide
  · decide

/-- C6: scores maps every player id in [1,players] (zero scores included),
each player's score is their stone count plus the cells of empty regions
bordered by exactly that one player, and all scores are 0 on an empty
board; concrete checks: the enclosed-territory position scores 9/0, the
open position with three stones scores 2/1 with no territory. -/
theorem scores_area :
    (∀ g : Game, (scores g).map Prod.fst = (List.range g.players).map (fun i => i + 1)) ∧
    (∀ (g : Game) (pl : Nat), 1 ≤ pl → pl ≤ g.players →
      (pl, stonesOf g.side g.board pl + territoryOf g.side g.board pl) ∈ scores g) ∧
    (∀ (side players : Nat) (sk : Bool) (pr : Nat × Nat),
      pr ∈ scores (newGame side players sk) → pr.2 = 0) ∧
    (load_game (newGame 3 2 false) 1 terrGrid).map scores = .ok [(1, 9), (2, 0)] ∧
    (load_game (newGame 5 2 false) 1 mixedGrid).map scores = .ok [(1, 2), (2, 1)] := by
  refine ⟨?_, ?_, ?_, rfl, rfl⟩
  · intro g
    rw [scores, List.map_map]
    rfl
  · intro g pl h1 h2
    refine mem_scores_iff.mpr ⟨pl - 1, by omega, ?_⟩
    rw [Nat.sub_add_cancel h1]
    rfl
  · intro side players sk pr hpr
    obtain ⟨i, hi, rfl⟩ := mem_scores_iff.mp hpr
    show scoreOf (newGame side players sk) (i + 1) = 0
    rw [scoreOf]
    show stonesOf side (emptyBoard side) (i + 1) +
      territoryOf side (emptyBoard side) (i + 1) = 0
    have hstones : stonesOf side (emptyBoard side) (i + 1) = 0 := by
      rw [stonesOf]
      have hfil : (allPositions side).filter
          (fun p => cellAt side (emptyBoard side) p == some (i + 1)) = [] := by
        rw [List.filter_eq_nil_iff]
        intro p hp
        simp [cellAt_emptyBoard]
      rw [hfil]
      rfl
    have hterr : territoryOf side (emptyBoard side) (i + 1) = 0 := by
      rw [territoryOf]
      have hfil : (emptyRegions side (emptyBoard side)).filter
          (fun r => regionOwners side (emptyBoard side) r == [i + 1]) = [] := by
        rw [List.filter_eq_nil_iff]
        intro r hr
        have hown : regionOwners side (emptyBoard side) r = [] := by
          rw [regionOwners]
          have hfm : (r.flatMap orthNeighbors).filterMap
              (fun q => cellAt side (emptyBoard side) q) = [] := by
            rw [List.filterMap_eq_nil_iff]
            intro q hq
            exact cellAt_emptyBoard side q
          rw [hfm]
          rfl
        simp [hown]
      rw [hfil]
      rfl
    rw [hstones, hterr]

/-- C6 witness: the stones-plus-territory membership instantiated for
player 1 of the loaded 3×3 territory position. -/
theorem scores_area_witness :
    ((1 : Nat), stonesOf loadedTerrGame.side loadedTerrGame.board 1 +
      territoryOf loadedTerrGame.side loadedTerrGame.board 1) ∈ scores loadedTerrGame :=
  scores_area.2.1 loadedTerrGame 1 (by decide) (by decide)

/-! Facts about the fake's board-filling end move. -/

theorem cellAt_fillEmpty_some {side : Nat} {b : BoardGrid} {player : Nat} {p : Pos}
    {q : Nat} (h : cellAt side b p = some q) :
    cellAt side (fillEmpty b player) p = some q := by
  have hb : inBounds side p = true := inBounds_of_cellAt_some h
  rw [cellAt, if_pos hb] at h ⊢
  have hbind := Option.join_eq_some.mp h
  obtain ⟨row, hrow, hcol⟩ := Option.bind_eq_some.mp hbind
  rw [fillEmpty, List.getElem?_map, hrow]
  show ((some (row.map (fun c => some (c.getD player)))).bind
    (fun row => row[p.2.toNat]?)).join = some q
  rw [Option.some_bind, List.getElem?_map, hcol]
  rfl

theorem cellAt_fillEmpty_none {side : Nat} {b : BoardGrid} {player : Nat} {p : Pos}
    (hwf : WellFormed side b) (hb : inBounds side p = true)
    (h : cellAt side b p = none) :
    cellAt side (fillEmpty b player) p = some player := by
  have hpN := inBounds_iff.mp hb
  have hrowlt : p.1.toNat < b.length := by rw [hwf.1]; omega
  have hrow : b[p.1.toNat]? = some b[p.1.toNat] :=
    (List.getElem?_eq_some_getElem_iff b p.1.toNat hrowlt).mpr trivial
  have hrowlen : b[p.1.toNat].length = side := hwf.2 _ (List.getElem?_mem hrow)
  have hcollt : p.2.toNat < b[p.1.toNat].length := by rw [hrowlen]; omega
  have hcol : b[p.1.toNat][p.2.toNat]? = some b[p.1.toNat][p.2.toNat] :=
    (List.getElem?_eq_some_getElem_iff _ p.2.toNat hcollt).mpr trivial
  have hcell : b[p.1.toNat][p.2.toNat] = none := by
    rw [cellAt, if_pos hb, hrow, Option.some_bind, hcol] at h
    exact h
  rw [cellAt, if_pos hb, fillEmpty, List.getElem?_map, hrow]
  show ((some (b[p.1.toNat].map (fun c => some (c.getD player)))).bind
    (fun row => row[p.2.toNat]?)).join = some player
  rw [Option.some_bind, List.getElem?_map, hcol, hcell]
  rfl

/-- C10: in the modelled GoFake, a move at (0,0) immediately ends the game
(done true) without processing captures: every previously placed stone
stays where it is and every empty intersection is filled with the moving
player's stone — a termination path the spec never states: in the spec
engine a placement always leaves the game non-terminal (all players passing
is the only way done becomes true). -/
theorem fake_zero_zero_ends_game :
    (∀ (g h : FakeGame),
      WellFormed g.side g.board →
      fakeApplyMove g ((0 : Int), (0 : Int)) = .ok h →
      fakeDone h = true ∧
      h.board = fillEmpty g.board g.turn ∧
      (∀ (p : Pos) (q : Nat), cellAt g.side g.board p = some q →
        cellAt g.side h.board p = some q) ∧
      (∀ p : Pos, inBounds g.side p = true → cellAt g.side g.board p = none →
        cellAt g.side h.board p = some g.turn)) ∧
    (∀ (g : Game) (pos : Pos) (h : Game), 0 < g.players →
      apply_move g pos = .ok h → done h = false) := by
  constructor
  · intro g h hwf happ
    rw [fakeApplyMove] at happ
    split at happ
    · rw [if_pos rfl] at happ
      have hok := Except.ok.inj happ
      refine ⟨?_, ?_, ?_, ?_⟩
      · rw [← hok]
        simp [fakeDone]
      · rw [← hok]
      · intro p q hc
        rw [← hok]
        exact cellAt_fillEmpty_some hc
      · intro p hbp hc
        rw [← hok]
        exact cellAt_fillEmpty_none hwf hbp hc
    · exact Except.noConfusion happ
  · intro g pos h hp happ
    rw [apply_move] at happ
    split at happ
    · rw [← Except.ok.inj happ]
      show ((0 : Nat) == g.players) = false
      simp
      omega
    · exact Except.noConfusion happ

/-- C10 witness: the fake end move after four placements on a 5×5 fake
game: done becomes true, player 2's stone at (2,2) survives (no capture
processing), and the empty corner (0,4) is filled with player 1's stone. -/
theorem fake_zero_zero_ends_game_witness :
    fakeDone endedFakeGame = true ∧
    cellAt 5 endedFakeGame.board (2, 2) = some 2 ∧
    cellAt 5 endedFakeGame.board (0, 4) = some 1 := by
  have h := fake_zero_zero_ends_game.1 preEndFakeGame endedFakeGame (by decide) rfl
  exact ⟨h.1, h.2.2.1 (2, 2) 2 (by decide), h.2.2.2 (0, 4) (by decide) (by decide)⟩

/-- C7 witness: concrete instantiation on a fresh 3×3 game, first move at
(1,1) by player 1. -/
theorem apply_move_place_and_advance_witness :
    ∃ h, apply_move (newGame 3 2 false) ((1 : Int), (1 : Int)) = .ok h ∧
      piece_at h ((1 : Int), (1 : Int)) = .ok (some 1) ∧
      h.consecutivePasses = 0 ∧
      h.turn = 1 % 2 + 1 ∧
      1 ≤ h.turn ∧ h.turn ≤ 2 ∧
      (1 < 2 → h.turn = 1 + 1) ∧
      (1 = 2 → h.turn = 1) :=
  apply_move_place_and_advance (newGame 3 2 false) (1, 1)
    (by decide) (by decide) (by decide) (by decide)

end GoSpec
